import Mathlib

/-!
# Verification of the flashcard spaced-repetition core (`src/algorithm.ts`)

A shallow embedding of the Modified-Leitner flashcard algorithm:

* `toBucketSets`    — sparse map → dense array conversion
* `getBucketRange`  — lowest/highest occupied bucket index
* `practice`        — cards due on a given day (power-of-two cadence)
* `update`          — relocate a card after a review outcome
* `getHint`         — authored hint or deterministic fallback
* `computeProgress` — accuracy / distribution / mean-difficulty statistics

JavaScript `Map`s are embedded as insertion-ordered association lists,
`Set`s of flashcards as `Finset`, numbers as `ℤ`/`ℕ`/`ℚ` as appropriate,
and thrown exceptions as `Except String`.
-/

namespace Flashcards

/-- Decidable equality for `Except`, so that concrete runs of the embedded
operations can be checked by `decide`. -/
instance {ε α : Type} [DecidableEq ε] [DecidableEq α] : DecidableEq (Except ε α) := fun x y =>
  match x, y with
  | .error e, .error f =>
    if h : e = f then .isTrue (congrArg Except.error h)
    else .isFalse (fun hc => h (Except.error.inj hc))
  | .ok a, .ok b =>
    if h : a = b then .isTrue (congrArg Except.ok h)
    else .isFalse (fun hc => h (Except.ok.inj hc))
  | .error _, .ok _ => .isFalse (fun hc => Except.noConfusion hc)
  | .ok _, .error _ => .isFalse (fun hc => Except.noConfusion hc)

/-- JS `String.prototype.trim()`: drop leading and trailing whitespace
characters (embedded over the string's character list so that it evaluates
by kernel reduction). -/
def jsTrim (s : String) : String :=
  ⟨((s.data.dropWhile Char.isWhitespace).reverse.dropWhile Char.isWhitespace).reverse⟩

/-- Modelled from the spec: the `Flashcard` item type from the repository's
`flashcards.ts` (not present under `src/`): an immutable learning unit with a
prompt (`front`), an answer (`back`), an optional hint string, and a tag
collection. -/
structure Flashcard where
  front : String
  back : String
  hint : String
  tags : List String
deriving DecidableEq, Repr

/-- Modelled from the spec: the `AnswerDifficulty` enumeration from the
repository's `flashcards.ts` (not present under `src/`): three ordered
outcomes with numeric ordinals usable in arithmetic. -/
inductive AnswerDifficulty where
  | Hard
  | Medium
  | Easy
deriving DecidableEq, Repr

/-- Modelled from the spec: the numeric ordinal of a difficulty value
(Hard = 0, Medium = 1, Easy = 2), used by the statistics mean. -/
def AnswerDifficulty.ordinal : AnswerDifficulty → ℚ
  | .Hard => 0
  | .Medium => 1
  | .Easy => 2

/-- Modelled from the spec: `BucketMap = Map<number, Set<Flashcard>>`,
embedded as an insertion-ordered association list; a real JS `Map` has
distinct keys, stated as a `Nodup` hypothesis where a theorem needs it. -/
abbrev BucketMap := List (ℤ × Finset Flashcard)

/-- The keys of the map, in insertion order (`buckets.keys()`). -/
def mapKeys (m : BucketMap) : List ℤ :=
  m.map Prod.fst

/-- JS `m.has(k)`. -/
def mapHas (m : BucketMap) (k : ℤ) : Bool :=
  m.any (fun kv => kv.1 = k)

/-- JS `m.get(k)` (first entry with key `k`, if any). -/
def mapGet (m : BucketMap) (k : ℤ) : Option (Finset Flashcard) :=
  (m.find? (fun kv => kv.1 = k)).map Prod.snd

/-! ## `toBucketSets` (algorithm.ts lines 21–29) -/

/-- `Math.max(...buckets.keys(), -1)`. -/
def maxBucketKey (buckets : BucketMap) : ℤ :=
  buckets.foldl (fun m kv => max m kv.1) (-1)

/-- `toBucketSets`: build an array of `maxBucket + 1` empty sets, then place
each map entry's set at the position given by its bucket key. -/
def toBucketSets (buckets : BucketMap) : List (Finset Flashcard) :=
  let bucketArray := List.replicate (maxBucketKey buckets + 1).toNat (∅ : Finset Flashcard)
  buckets.foldl (fun arr kv => arr.set kv.1.toNat kv.2) bucketArray

/-! ## `getBucketRange` (algorithm.ts lines 39–53) -/

/-- The `{minBucket, maxBucket}` result object. -/
structure BucketRange where
  minBucket : ℕ
  maxBucket : ℕ
deriving DecidableEq, Repr

/-- The `buckets.forEach((set, index) => ...)` loop of `getBucketRange`:
`none` stands for the initial `min = Infinity, max = -Infinity` state, which
turns finite exactly when a non-empty set is seen. -/
def rangeLoop : List (Finset Flashcard) → ℕ → Option BucketRange → Option BucketRange
  | [], _, acc => acc
  | s :: rest, i, acc =>
    rangeLoop rest (i + 1)
      (if 0 < s.card then
        match acc with
        | none => some ⟨i, i⟩
        | some r => some ⟨min r.minBucket i, max r.maxBucket i⟩
      else acc)

/-- `getBucketRange`: scan all indices, a bucket counts iff `set.size > 0`;
result is `none` (`undefined`) iff `min` stayed infinite. -/
def getBucketRange (buckets : List (Finset Flashcard)) : Option BucketRange :=
  rangeLoop buckets 0 none

/-! ## `practice` (algorithm.ts lines 64–83) -/

/-- JS `1 << i`: 32-bit shift, so the shift count is `i % 32` and the result
is a signed 32-bit value (`1 << 31` is `-2^31`). -/
def jsShl1 (i : ℕ) : ℤ :=
  if i % 32 = 31 then -(2 ^ 31) else 2 ^ (i % 32)

/-- The `for (let i = 0; ...)` loop of `practice`: a slot contributes iff it
is present (`buckets[i]` truthy) and `day % (1 << i) === 0`.  A JS remainder
is zero exactly when the divisor divides the dividend, matching `ℤ` `%`. -/
def practiceLoop (day : ℤ) : List (Option (Finset Flashcard)) → ℕ → Finset Flashcard
  | [], _ => ∅
  | slot :: rest, i =>
    (match slot with
      | some cards => if day % jsShl1 i = 0 then cards else ∅
      | none => ∅) ∪ practiceLoop day rest (i + 1)

/-- `practice`: throws on a negative day, otherwise collects the due cards. -/
def practice (buckets : List (Option (Finset Flashcard))) (day : ℤ) :
    Except String (Finset Flashcard) :=
  if day < 0 then .error "Day number must be non-negative"
  else .ok (practiceLoop day buckets 0)

/-! ## `update` (algorithm.ts lines 96–128) -/

/-- The `for (const [bucket, cards] of buckets)` scan of `update`: the key of
the first entry whose set contains the card, if any. -/
def findCurrentBucket (card : Flashcard) : BucketMap → Option ℤ
  | [] => none
  | kv :: rest =>
    if card ∈ kv.2 then some kv.1 else findCurrentBucket card rest

/-- `buckets.get(k)?.delete(card)`: erase the card from the set stored at
key `k` (a no-op when the key is absent). -/
def deleteCardAt (m : BucketMap) (k : ℤ) (card : Flashcard) : BucketMap :=
  m.map (fun kv => if kv.1 = k then (kv.1, kv.2.erase card) else kv)

/-- `buckets.get(k)?.add(card)`: insert the card into the set stored at
key `k` (a no-op when the key is absent). -/
def addCardAt (m : BucketMap) (k : ℤ) (card : Flashcard) : BucketMap :=
  m.map (fun kv => if kv.1 = k then (kv.1, insert card kv.2) else kv)

/-- The destination bucket computed by `update` (lines 113–118):
`Easy` → `Math.min(currentBucket + 1, buckets.size - 1)`,
`Hard` → `Math.max(currentBucket - 1, 0)`, otherwise unchanged. -/
def newBucketFor (difficulty : AnswerDifficulty) (currentBucket : ℤ) (size : ℕ) : ℤ :=
  if difficulty = .Easy then min (currentBucket + 1) ((size : ℤ) - 1)
  else if difficulty = .Hard then max (currentBucket - 1) 0
  else currentBucket

/-- `update`: locate the card's current bucket (throwing `"Card not found"`
if absent), compute the destination bucket, delete the card from its current
bucket, create the destination key with an empty set if missing, and add the
card there. -/
def update (buckets : BucketMap) (card : Flashcard) (difficulty : AnswerDifficulty) :
    Except String BucketMap :=
  match findCurrentBucket card buckets with
  | none => .error "Card not found"
  | some currentBucket =>
    let newBucket := newBucketFor difficulty currentBucket buckets.length
    let afterDelete := deleteCardAt buckets currentBucket card
    let afterEnsure :=
      if mapHas afterDelete newBucket then afterDelete
      else afterDelete ++ [(newBucket, (∅ : Finset Flashcard))]
    .ok (addCardAt afterEnsure newBucket card)

/-! ## `getHint` (algorithm.ts lines 146–149) -/

/-- `getHint`: the trimmed authored hint when non-empty, otherwise the
deterministic fallback built from the prompt. -/
def getHint (card : Flashcard) : String :=
  let trimmedHint := jsTrim card.hint
  if trimmedHint ≠ "" then trimmedHint
  else "Think about the key concepts related to " ++ card.front

/-! ## `computeProgress` (algorithm.ts lines 173–195) -/

/-- A history record `{card, difficulty, timestamp}`; `Option` fields model
the malformed values the validation rejects (`null`/`undefined` card,
`undefined` difficulty, non-numeric timestamp). -/
structure PracticeRecord where
  card : Option Flashcard
  difficulty : Option AnswerDifficulty
  timestamp : Option ℚ
deriving DecidableEq

/-- The per-record validation of `computeProgress`:
`!record.card || record.difficulty === undefined || typeof record.timestamp !== "number"`. -/
def recordInvalid (r : PracticeRecord) : Bool :=
  r.card.isNone || r.difficulty.isNone || r.timestamp.isNone

/-- The `BucketMap` as consumed by `computeProgress`: a JS `Map<number, …>`
key is a `number` that may be non-integer, so for the statistics function
(whose validation at line 174 tests `Number.isInteger`) keys are embedded
as `ℚ`; the `ℤ`-keyed `BucketMap` above embeds the data-model maps (integer
bucket numbers) that the other operations are specified on. -/
abbrev NumberBucketMap := List (ℚ × Finset Flashcard)

/-- The keys of the map, in insertion order (`buckets.keys()`). -/
def numberMapKeys (m : NumberBucketMap) : List ℚ :=
  m.map Prod.fst

/-- `Number.isInteger(k)` for a (finite) `ℚ`-embedded JS number: true iff
the value is an integer, i.e. its reduced denominator is 1. -/
def jsIsInteger (k : ℚ) : Bool :=
  k.den = 1

/-- The result object of `computeProgress`; `bucketDistribution` is the
record keyed by bucket number, `averageDifficulty` is `none` for
`undefined`. -/
structure Progress where
  accuracyRate : ℚ
  bucketDistribution : List (ℚ × ℕ)
  averageDifficulty : Option ℚ
deriving DecidableEq

/-- `computeProgress`: validate that every bucket key is a non-negative
integer (`Number.isInteger(k) && k >= 0`) and that every history record is
well-formed, then compute accuracy, per-bucket sizes, and the mean
difficulty ordinal. -/
def computeProgress (buckets : NumberBucketMap) (history : List PracticeRecord) :
    Except String Progress :=
  if ¬ ((numberMapKeys buckets).all (fun k => jsIsInteger k && decide (0 ≤ k))) then
    .error "Invalid bucket keys: must be non-negative integers."
  else if history.any recordInvalid then
    .error "Invalid history data."
  else
    let totalAttempts := history.length
    let correctAttempts := (history.filter (fun r => r.difficulty = some .Easy)).length
    let accuracyRate : ℚ :=
      if 0 < totalAttempts then (correctAttempts : ℚ) / (totalAttempts : ℚ) else 0
    let bucketDistribution : List (ℚ × ℕ) := buckets.map (fun kv => (kv.1, kv.2.card))
    let totalDifficulty : ℚ :=
      history.foldl (fun sum r => sum + ((r.difficulty.map AnswerDifficulty.ordinal).getD 0)) 0
    let averageDifficulty : Option ℚ :=
      if 0 < totalAttempts then some (totalDifficulty / (totalAttempts : ℚ)) else none
    .ok ⟨accuracyRate, bucketDistribution, averageDifficulty⟩

/-! ## Sample cards used by concrete witnesses and counterexamples -/

/-- A sample card. -/
def cardA : Flashcard := ⟨"A", "a", "", []⟩

/-- A second sample card. -/
def cardB : Flashcard := ⟨"B", "b", "", []⟩

example : getHint cardA = "Think about the key concepts related to A" := by decide

example : practice [some {cardA}, some {cardB}] 1 = .ok {cardA} := by decide

example : getBucketRange [∅, {cardA}, ∅, {cardB}] = some ⟨1, 3⟩ := by decide

example : toBucketSets [((2 : ℤ), {cardA})] = [∅, ∅, {cardA}] := by decide

example : computeProgress [((0 : ℚ), {cardA})]
    [⟨some cardA, some .Easy, some 1⟩, ⟨some cardB, some .Hard, some 2⟩]
    = .ok ⟨1 / 2, [(0, 1)], some 1⟩ := by
  simp [computeProgress, numberMapKeys, jsIsInteger, recordInvalid, AnswerDifficulty.ordinal]

example : computeProgress [((1 : ℚ) / 2, {cardA})] []
    = .error "Invalid bucket keys: must be non-negative integers." := by
  simp [computeProgress, numberMapKeys, jsIsInteger]

/-! ## Helper lemmas about the association-list embedding of JS `Map` -/

theorem mapKeys_cons (kv : ℤ × Finset Flashcard) (rest : BucketMap) :
    mapKeys (kv :: rest) = kv.1 :: mapKeys rest := rfl

theorem mem_mapKeys {m : BucketMap} {k : ℤ} :
    k ∈ mapKeys m ↔ ∃ s, (k, s) ∈ m := by
  constructor
  · intro h
    obtain ⟨⟨k', s⟩, hm, hk⟩ := List.mem_map.mp h
    cases hk
    exact ⟨s, hm⟩
  · rintro ⟨s, hm⟩
    exact List.mem_map.mpr ⟨(k, s), hm, rfl⟩

theorem mapGet_cons (kv : ℤ × Finset Flashcard) (rest : BucketMap) (j : ℤ) :
    mapGet (kv :: rest) j = if kv.1 = j then some kv.2 else mapGet rest j := by
  by_cases h : kv.1 = j
  · simp [mapGet, h]
  · simp [mapGet, h]

theorem mapGet_eq_none_iff {m : BucketMap} {j : ℤ} :
    mapGet m j = none ↔ j ∉ mapKeys m := by
  simp only [mapGet, Option.map_eq_none', List.find?_eq_none, decide_eq_true_eq]
  constructor
  · intro h hj
    obtain ⟨s, hm⟩ := mem_mapKeys.mp hj
    exact h (j, s) hm rfl
  · rintro h ⟨k', s⟩ hkv hk
    cases hk
    exact h (mem_mapKeys.mpr ⟨s, hkv⟩)

theorem mapGet_isSome_of_mem_keys {m : BucketMap} {j : ℤ} (h : j ∈ mapKeys m) :
    ∃ s, mapGet m j = some s := by
  cases hg : mapGet m j with
  | none => exact absurd (mapGet_eq_none_iff.mp hg) (by simpa using h)
  | some s => exact ⟨s, rfl⟩

theorem mapHas_eq_true_iff {m : BucketMap} {k : ℤ} :
    mapHas m k = true ↔ k ∈ mapKeys m := by
  simp only [mapHas, List.any_eq_true, decide_eq_true_eq]
  constructor
  · rintro ⟨⟨k', s⟩, hm, hk⟩
    cases hk
    exact mem_mapKeys.mpr ⟨s, hm⟩
  · intro h
    obtain ⟨s, hm⟩ := mem_mapKeys.mp h
    exact ⟨(k, s), hm, rfl⟩

theorem mapHas_eq_false_iff {m : BucketMap} {k : ℤ} :
    mapHas m k = false ↔ k ∉ mapKeys m := by
  rw [← Bool.not_eq_true, not_iff_not]
  exact mapHas_eq_true_iff

theorem mapKeys_transform (m : BucketMap) (k : ℤ)
    (f : Finset Flashcard → Finset Flashcard) :
    mapKeys (m.map (fun kv => if kv.1 = k then (kv.1, f kv.2) else kv)) = mapKeys m := by
  induction m with
  | nil => rfl
  | cons kv rest ih =>
    simp only [List.map_cons, mapKeys_cons]
    by_cases h : kv.1 = k <;> simp [h, ih]

theorem mapGet_transform (m : BucketMap) (k j : ℤ)
    (f : Finset Flashcard → Finset Flashcard) :
    mapGet (m.map (fun kv => if kv.1 = k then (kv.1, f kv.2) else kv)) j =
      if j = k then (mapGet m j).map f else mapGet m j := by
  induction m with
  | nil => by_cases h : j = k <;> simp [mapGet, h]
  | cons kv rest ih =>
    simp only [List.map_cons]
    by_cases hk : kv.1 = k
    · subst hk
      by_cases hj : kv.1 = j
      · subst hj
        simp [mapGet_cons]
      · have hj' : ¬ j = kv.1 := fun hc => hj hc.symm
        simp [mapGet_cons, hj, hj', ih]
    · by_cases hj : kv.1 = j
      · subst hj
        have hk' : ¬ kv.1 = k := hk
        simp [mapGet_cons, hk, hk']
      · simp [mapGet_cons, hk, hj, ih]

theorem transform_of_not_mem_keys (m : BucketMap) (k : ℤ)
    (f : Finset Flashcard → Finset Flashcard) (h : k ∉ mapKeys m) :
    m.map (fun kv => if kv.1 = k then (kv.1, f kv.2) else kv) = m := by
  induction m with
  | nil => rfl
  | cons kv rest ih =>
    simp only [mapKeys_cons, List.mem_cons, not_or] at h
    have hne : ¬ kv.1 = k := fun hc => h.1 hc.symm
    simp only [List.map_cons, if_neg hne]
    rw [ih h.2]

/-! ## Helper lemmas about `findCurrentBucket` -/

theorem findCurrentBucket_eq_none {card : Flashcard} {m : BucketMap}
    (h : ∀ kv ∈ m, card ∉ kv.2) : findCurrentBucket card m = none := by
  induction m with
  | nil => rfl
  | cons kv rest ih =>
    rw [findCurrentBucket, if_neg (h kv (List.mem_cons_self kv rest))]
    exact ih fun kv' hm => h kv' (List.mem_cons_of_mem kv hm)

theorem findCurrentBucket_eq_some {card : Flashcard} {m : BucketMap} {b : ℤ}
    (h : findCurrentBucket card m = some b) : ∃ s, (b, s) ∈ m ∧ card ∈ s := by
  induction m with
  | nil => exact absurd h (by simp [findCurrentBucket])
  | cons kv rest ih =>
    by_cases hc : card ∈ kv.2
    · rw [findCurrentBucket, if_pos hc] at h
      obtain rfl : kv.1 = b := Option.some.inj h
      exact ⟨kv.2, by simp, hc⟩
    · rw [findCurrentBucket, if_neg hc] at h
      obtain ⟨s, hm, hs⟩ := ih h
      exact ⟨s, List.mem_cons_of_mem _ hm, hs⟩

/-! ## Helper lemmas about `update` -/

theorem mapKeys_deleteCardAt (m : BucketMap) (k : ℤ) (card : Flashcard) :
    mapKeys (deleteCardAt m k card) = mapKeys m :=
  mapKeys_transform m k (fun s => s.erase card)

theorem mapKeys_addCardAt (m : BucketMap) (k : ℤ) (card : Flashcard) :
    mapKeys (addCardAt m k card) = mapKeys m :=
  mapKeys_transform m k (fun s => insert card s)

theorem mapGet_deleteCardAt (m : BucketMap) (k j : ℤ) (card : Flashcard) :
    mapGet (deleteCardAt m k card) j =
      if j = k then (mapGet m j).map (fun s => s.erase card) else mapGet m j :=
  mapGet_transform m k j (fun s => s.erase card)

theorem mapGet_addCardAt (m : BucketMap) (k j : ℤ) (card : Flashcard) :
    mapGet (addCardAt m k card) j =
      if j = k then (mapGet m j).map (fun s => insert card s) else mapGet m j :=
  mapGet_transform m k j (fun s => insert card s)

theorem mapGet_append_singleton_self {m : BucketMap} {j : ℤ} (s : Finset Flashcard)
    (h : j ∉ mapKeys m) : mapGet (m ++ [(j, s)]) j = some s := by
  have h1 : List.find? (fun kv => decide (kv.1 = j)) m = none :=
    Option.map_eq_none'.mp (mapGet_eq_none_iff.mpr h)
  simp [mapGet, List.find?_append, h1]

theorem update_eq_of_found {buckets : BucketMap} {card : Flashcard}
    {difficulty : AnswerDifficulty} {b : ℤ}
    (hfind : findCurrentBucket card buckets = some b) :
    update buckets card difficulty =
      .ok (addCardAt
        (if mapHas (deleteCardAt buckets b card) (newBucketFor difficulty b buckets.length)
          then deleteCardAt buckets b card
          else deleteCardAt buckets b card
            ++ [(newBucketFor difficulty b buckets.length, (∅ : Finset Flashcard))])
        (newBucketFor difficulty b buckets.length) card) := by
  unfold update
  rw [hfind]

theorem addCardAt_deleteCardAt_cancel {m : BucketMap} {b : ℤ} {card : Flashcard}
    {s : Finset Flashcard} (hnodup : (mapKeys m).Nodup) (hmem : (b, s) ∈ m)
    (hcard : card ∈ s) :
    addCardAt (deleteCardAt m b card) b card = m := by
  induction m with
  | nil => cases hmem
  | cons kv rest ih =>
    rw [mapKeys_cons, List.nodup_cons] at hnodup
    rcases List.mem_cons.mp hmem with heq | hmem'
    · cases heq
      have h1 : deleteCardAt rest b card = rest :=
        transform_of_not_mem_keys rest b (fun s2 => s2.erase card) hnodup.1
      have h2 : addCardAt rest b card = rest :=
        transform_of_not_mem_keys rest b (fun s2 => insert card s2) hnodup.1
      simp only [deleteCardAt, addCardAt, List.map_cons] at h1 h2 ⊢
      simp [h1, h2, Finset.insert_erase hcard]
    · have hb : b ∈ mapKeys rest := mem_mapKeys.mpr ⟨s, hmem'⟩
      have hne : ¬ kv.1 = b := fun hc => hnodup.1 (hc ▸ hb)
      have htail : addCardAt (deleteCardAt rest b card) b card = rest :=
        ih hnodup.2 hmem'
      simp only [deleteCardAt, addCardAt, List.map_cons, if_neg hne] at htail ⊢
      rw [htail]

/-! ## C5: update on an absent card -/

/-- **C5.** For every sparse bucket map and every card that is present in no
bucket of the map, `update` fails with the not-found error (in the pure
embedding no new map is produced, so no bucket is modified and no key is
added before the failure). -/
theorem update_card_not_found (buckets : BucketMap) (card : Flashcard)
    (difficulty : AnswerDifficulty) (habsent : ∀ kv ∈ buckets, card ∉ kv.2) :
    update buckets card difficulty = .error "Card not found" := by
  unfold update
  rw [findCurrentBucket_eq_none habsent]

/-- Witness for C5: updating a card that is in no bucket of a concrete map
fails with the not-found error. -/
theorem update_card_not_found_witness :
    update [((0 : ℤ), {cardA})] cardB .Easy = .error "Card not found" :=
  update_card_not_found _ _ _ (by decide)

/-! ## C3: destination bucket of update -/

/-- **C3.** For every sparse bucket map and every card found in some bucket
(current index `b`), `update` computes the destination bucket as
`Easy` → `b + 1` capped at (number of buckets − 1), `Hard` → `b − 1`
floored at 0, `Medium` → `b` (this is `newBucketFor`); if the destination
key is absent from the map it is created with an empty set (so the
destination then holds exactly the moved card), and the card ends up in the
destination bucket's set. -/
theorem update_destination_spec (buckets : BucketMap) (card : Flashcard)
    (difficulty : AnswerDifficulty) (b : ℤ)
    (hfind : findCurrentBucket card buckets = some b) :
    ∃ M s, update buckets card difficulty = .ok M ∧
      mapGet M (newBucketFor difficulty b buckets.length) = some s ∧
      card ∈ s ∧
      (mapHas buckets (newBucketFor difficulty b buckets.length) = false →
        s = {card}) := by
  by_cases hhas :
      mapHas (deleteCardAt buckets b card) (newBucketFor difficulty b buckets.length) = true
  · obtain ⟨s1, hs1⟩ := mapGet_isSome_of_mem_keys (mapHas_eq_true_iff.mp hhas)
    refine ⟨addCardAt (deleteCardAt buckets b card)
        (newBucketFor difficulty b buckets.length) card,
      insert card s1, ?_, ?_, Finset.mem_insert_self _ _, ?_⟩
    · rw [update_eq_of_found hfind, if_pos hhas]
    · rw [mapGet_addCardAt, if_pos rfl, hs1]
      rfl
    · intro hfalse
      exfalso
      have hout : newBucketFor difficulty b buckets.length ∉ mapKeys buckets :=
        mapHas_eq_false_iff.mp hfalse
      have hin := mapHas_eq_true_iff.mp hhas
      rw [mapKeys_deleteCardAt] at hin
      exact hout hin
  · have hfalse' :
        mapHas (deleteCardAt buckets b card) (newBucketFor difficulty b buckets.length)
          = false := by
      cases hmh : mapHas (deleteCardAt buckets b card)
          (newBucketFor difficulty b buckets.length)
      · rfl
      · exact absurd hmh hhas
    have hnotmem := mapHas_eq_false_iff.mp hfalse'
    refine ⟨addCardAt (deleteCardAt buckets b card
        ++ [(newBucketFor difficulty b buckets.length, (∅ : Finset Flashcard))])
        (newBucketFor difficulty b buckets.length) card,
      {card}, ?_, ?_, Finset.mem_singleton_self card, fun _ => rfl⟩
    · rw [update_eq_of_found hfind, if_neg (by rw [hfalse']; exact Bool.false_ne_true)]
    · rw [mapGet_addCardAt, if_pos rfl, mapGet_append_singleton_self _ hnotmem]
      simp

/-- Witness for C3: moving the only card of a single-bucket map with `Easy`
keeps it in bucket `0 = min(0 + 1, 1 - 1)`. -/
theorem update_destination_spec_witness :
    ∃ M s, update [((0 : ℤ), {cardA})] cardA .Easy = .ok M ∧
      mapGet M (newBucketFor .Easy 0 1) = some s ∧ cardA ∈ s ∧
      (mapHas [((0 : ℤ), {cardA})] (newBucketFor .Easy 0 1) = false → s = {cardA}) :=
  update_destination_spec [((0 : ℤ), {cardA})] cardA .Easy 0 (by decide)

/-! ## C1: Easy on the highest bucket -/

/-- **C1** fails as stated: in the sparse map `{0 ↦ {A}, 5 ↦ {B}}` the card
`B` sits in the last (highest-keyed) bucket `5`, yet `update` with `Easy` is
not a no-op — the cap is `buckets.size - 1 = 1`, so `B` is removed from
bucket `5` and bucket `1` is created and gains it. -/
theorem update_easy_highest_key_not_noop :
    update [((0 : ℤ), {cardA}), (5, {cardB})] cardB .Easy
      = .ok [((0 : ℤ), {cardA}), (5, (∅ : Finset Flashcard)), (1, {cardB})] ∧
    mapGet [((0 : ℤ), {cardA}), (5, (∅ : Finset Flashcard)), (1, {cardB})] 5
      = some (∅ : Finset Flashcard) ∧
    mapGet [((0 : ℤ), {cardA}), (5, (∅ : Finset Flashcard)), (1, {cardB})] 1
      = some {cardB} := by
  refine ⟨by decide, by decide, by decide⟩

/-- **C1 (amended).** `Easy` is a no-op exactly for a card whose current
bucket key equals `buckets.size - 1` (for a map whose keys are the
contiguous range `0 .. size-1` this is the highest-keyed bucket): the card
stays in that bucket and the map is unchanged. -/
theorem update_easy_last_bucket_noop (buckets : BucketMap) (card : Flashcard)
    (hnodup : (mapKeys buckets).Nodup)
    (hfind : findCurrentBucket card buckets = some ((buckets.length : ℤ) - 1)) :
    update buckets card .Easy = .ok buckets := by
  obtain ⟨s, hmem, hcard⟩ := findCurrentBucket_eq_some hfind
  have hnb : newBucketFor .Easy ((buckets.length : ℤ) - 1) buckets.length
      = (buckets.length : ℤ) - 1 := by
    simp only [newBucketFor, if_pos rfl]
    exact min_eq_right (by linarith)
  have hhas : mapHas (deleteCardAt buckets ((buckets.length : ℤ) - 1) card)
      ((buckets.length : ℤ) - 1) = true := by
    rw [mapHas_eq_true_iff, mapKeys_deleteCardAt]
    exact mem_mapKeys.mpr ⟨s, hmem⟩
  rw [update_eq_of_found hfind, hnb, if_pos hhas,
    addCardAt_deleteCardAt_cancel hnodup hmem hcard]

/-- Witness for C1 (amended): `Easy` on the sole bucket `0` of a
single-bucket map leaves the map unchanged. -/
theorem update_easy_last_bucket_noop_witness :
    update [((0 : ℤ), {cardA})] cardA .Easy = .ok [((0 : ℤ), {cardA})] :=
  update_easy_last_bucket_noop _ _ (by decide) (by decide)

/-! ## C9: day validation in `practice` -/

/-- **C9.** For every dense bucket array, `practice` fails with the
invalid-input error on every negative day number, and for every day number
≥ 0 it never fails. -/
theorem practice_day_validation (buckets : List (Option (Finset Flashcard))) (day : ℤ) :
    (day < 0 → practice buckets day = .error "Day number must be non-negative") ∧
    (0 ≤ day → ∃ selected, practice buckets day = .ok selected) := by
  constructor
  · intro h
    rw [practice, if_pos h]
  · intro h
    exact ⟨_, by rw [practice, if_neg (not_lt.mpr h)]⟩

/-- Witness for C9: on a concrete array, day `-1` errors and day `0`
succeeds. -/
theorem practice_day_validation_witness :
    practice [some {cardA}] (-1) = .error "Day number must be non-negative" ∧
    ∃ selected, practice [some {cardA}] 0 = .ok selected :=
  ⟨(practice_day_validation [some {cardA}] (-1)).1 (by decide),
   (practice_day_validation [some {cardA}] 0).2 (by decide)⟩

/-! ## C10: `getHint` -/

/-- **C10.** `getHint` is total and returns the card's hint with
leading/trailing whitespace trimmed, verbatim, when that trimmed hint is
non-empty; otherwise exactly `"Think about the key concepts related to "`
followed by the card's prompt with no alteration. -/
theorem getHint_spec (card : Flashcard) :
    (jsTrim card.hint ≠ "" → getHint card = jsTrim card.hint) ∧
    (jsTrim card.hint = "" →
      getHint card = "Think about the key concepts related to " ++ card.front) := by
  constructor
  · intro h
    simp [getHint, h]
  · intro h
    simp [getHint, h]

/-- Witness for C10: a padded hint is returned trimmed, and a card with an
empty hint gets the fallback built from its prompt. -/
theorem getHint_spec_witness :
    getHint ⟨"Q", "A", "  a hint  ", []⟩ = "a hint" ∧
    getHint cardA = "Think about the key concepts related to A" :=
  ⟨(getHint_spec ⟨"Q", "A", "  a hint  ", []⟩).1 (by decide),
   (getHint_spec cardA).2 (by decide)⟩

/-! ## C2: the power-of-two selection cadence -/

/-- **C2** (the claim's `d mod 2^i` rule is the intent, but the code wraps
at index 32): the code computes `1 << i` with JS 32-bit shift semantics, so
on a dense array whose bucket 32 holds a card, day 1 selects that card
(`1 << 32` evaluates to `1`), although `1 mod 2^32 ≠ 0` says bucket 32
should be due only every `2^32` days. -/
theorem practice_bucket32_selected_every_day :
    practice (List.replicate 32 (none : Option (Finset Flashcard)) ++ [some {cardA}]) 1
      = .ok {cardA} ∧ ¬ ((1 : ℤ) % 2 ^ 32 = 0) := by
  constructor
  · decide
  · decide

/-! ## C4: the at-most-one-bucket invariant -/

/-- The number of buckets of the map whose set contains `c`. -/
def bucketsContaining (m : BucketMap) (c : Flashcard) : ℕ :=
  m.countP (fun kv => decide (c ∈ kv.2))

/-- The representation invariant of the sparse map: every item appears in at
most one bucket. -/
def EachCardInAtMostOneBucket (m : BucketMap) : Prop :=
  ∀ c : Flashcard, bucketsContaining m c ≤ 1

theorem two_le_length_of_mem_ne {α : Type} [DecidableEq α] {x y : α} {l : List α}
    (hx : x ∈ l) (hy : y ∈ l) (hne : x ≠ y) : 2 ≤ l.length := by
  have hy' : y ∈ l.erase x := (List.mem_erase_of_ne (Ne.symm hne)).mpr hy
  have h1 : 0 < (l.erase x).length := List.length_pos_of_mem hy'
  have h2 : (l.erase x).length = l.length - 1 := List.length_erase_of_mem hx
  have h3 : 0 < l.length := List.length_pos_of_mem hx
  omega

theorem countP_key_le_one {m : BucketMap} (hnodup : (mapKeys m).Nodup) (d : ℤ) :
    m.countP (fun kv => decide (kv.1 = d)) ≤ 1 := by
  induction m with
  | nil => simp
  | cons kv rest ih =>
    rw [mapKeys_cons, List.nodup_cons] at hnodup
    rw [List.countP_cons]
    by_cases h : kv.1 = d
    · have hzero : rest.countP (fun kv => decide (kv.1 = d)) = 0 := by
        rw [List.countP_eq_zero]
        intro kv' hm
        simp only [decide_eq_true_eq]
        intro hc
        exact hnodup.1 (h ▸ hc ▸ List.mem_map_of_mem Prod.fst hm)
      simp [h, hzero]
    · have := ih hnodup.2
      simp [h]
      omega

theorem bucketsContaining_deleteCardAt_ne {m : BucketMap} {k : ℤ} {card c : Flashcard}
    (hne : c ≠ card) :
    bucketsContaining (deleteCardAt m k card) c = bucketsContaining m c := by
  unfold bucketsContaining deleteCardAt
  rw [List.countP_map]
  apply List.countP_congr
  intro kv hm
  by_cases h : kv.1 = k <;>
    simp [h, Function.comp, Finset.mem_erase, hne]

theorem bucketsContaining_addCardAt_ne {m : BucketMap} {k : ℤ} {card c : Flashcard}
    (hne : c ≠ card) :
    bucketsContaining (addCardAt m k card) c = bucketsContaining m c := by
  unfold bucketsContaining addCardAt
  rw [List.countP_map]
  apply List.countP_congr
  intro kv hm
  by_cases h : kv.1 = k <;>
    simp [h, Function.comp, Finset.mem_insert, hne]

theorem bucketsContaining_append_empty (m : BucketMap) (d : ℤ) (c : Flashcard) :
    bucketsContaining (m ++ [(d, (∅ : Finset Flashcard))]) c = bucketsContaining m c := by
  unfold bucketsContaining
  rw [List.countP_append]
  simp

theorem not_mem_after_delete {m : BucketMap} {b : ℤ} {card : Flashcard}
    (hinv : bucketsContaining m card ≤ 1)
    (hfind : findCurrentBucket card m = some b) :
    ∀ kv ∈ deleteCardAt m b card, card ∉ kv.2 := by
  obtain ⟨s, hmem, hcard⟩ := findCurrentBucket_eq_some hfind
  intro kv hkv
  obtain ⟨kv0, hkv0, hkv0eq⟩ := List.mem_map.mp hkv
  by_cases h : kv0.1 = b
  · rw [if_pos h] at hkv0eq
    rw [← hkv0eq]
    exact Finset.not_mem_erase card kv0.2
  · rw [if_neg h] at hkv0eq
    subst hkv0eq
    intro hc
    have hne : kv0 ≠ (b, s) := fun hc2 => h (by rw [hc2])
    have h2 : 2 ≤ (m.filter (fun kv => decide (card ∈ kv.2))).length := by
      refine two_le_length_of_mem_ne (x := kv0) (y := (b, s)) ?_ ?_ hne
      · exact List.mem_filter.mpr ⟨hkv0, by simpa using hc⟩
      · exact List.mem_filter.mpr ⟨hmem, by simpa using hcard⟩
    rw [bucketsContaining, List.countP_eq_length_filter] at hinv
    omega

theorem mapGet_append_singleton_ne {m : BucketMap} {j d : ℤ} (s : Finset Flashcard)
    (hne : j ≠ d) : mapGet (m ++ [(d, s)]) j = mapGet m j := by
  simp only [mapGet, List.find?_append]
  have hdj : ¬ d = j := fun hc => hne hc.symm
  have hnone : List.find? (fun kv => decide (kv.1 = j)) [(d, s)] = none := by
    simp [hdj]
  rw [hnone, Option.or_none]

theorem exists_mem_mapGet_deleteCardAt {m : BucketMap} {b j : ℤ} {card c : Flashcard}
    (hc : c ≠ card) :
    (∃ s, mapGet (deleteCardAt m b card) j = some s ∧ c ∈ s)
      ↔ (∃ s, mapGet m j = some s ∧ c ∈ s) := by
  rw [mapGet_deleteCardAt]
  by_cases h : j = b
  · rw [if_pos h]
    constructor
    · rintro ⟨s, hs, hcs⟩
      obtain ⟨s0, hs0, rfl⟩ := Option.map_eq_some'.mp hs
      exact ⟨s0, hs0, (Finset.mem_erase.mp hcs).2⟩
    · rintro ⟨s, hs, hcs⟩
      refine ⟨s.erase card, ?_, Finset.mem_erase.mpr ⟨hc, hcs⟩⟩
      rw [hs]; rfl
  · rw [if_neg h]

theorem exists_mem_mapGet_addCardAt {m : BucketMap} {d j : ℤ} {card c : Flashcard}
    (hc : c ≠ card) :
    (∃ s, mapGet (addCardAt m d card) j = some s ∧ c ∈ s)
      ↔ (∃ s, mapGet m j = some s ∧ c ∈ s) := by
  rw [mapGet_addCardAt]
  by_cases h : j = d
  · rw [if_pos h]
    constructor
    · rintro ⟨s, hs, hcs⟩
      obtain ⟨s0, hs0, rfl⟩ := Option.map_eq_some'.mp hs
      exact ⟨s0, hs0, (Finset.mem_insert.mp hcs).resolve_left hc⟩
    · rintro ⟨s, hs, hcs⟩
      refine ⟨insert card s, ?_, Finset.mem_insert_of_mem hcs⟩
      rw [hs]; rfl
  · rw [if_neg h]

theorem bucketsContaining_addCardAt_card {m : BucketMap} {d : ℤ} {card : Flashcard}
    (hfree : ∀ kv ∈ m, card ∉ kv.2) :
    bucketsContaining (addCardAt m d card) card
      = m.countP (fun kv => decide (kv.1 = d)) := by
  unfold bucketsContaining addCardAt
  rw [List.countP_map]
  apply List.countP_congr
  intro kv hm
  by_cases h : kv.1 = d
  · simp [Function.comp, h]
  · simp [Function.comp, h, hfree kv hm]

/-- **C4.** For every sparse bucket map (with distinct keys, as a JS `Map`
guarantees) in which every item appears in at most one bucket, after a
successful `update` every item still appears in at most one bucket, and
every item other than the moved card keeps exactly its per-bucket
membership (the updater removes the card from its source bucket before
adding it to the destination and touches no other item). -/
theorem update_preserves_at_most_one_bucket (buckets : BucketMap) (card : Flashcard)
    (difficulty : AnswerDifficulty) (M : BucketMap)
    (hnodup : (mapKeys buckets).Nodup)
    (hinv : EachCardInAtMostOneBucket buckets)
    (hupd : update buckets card difficulty = .ok M) :
    EachCardInAtMostOneBucket M ∧
    (∀ c : Flashcard, c ≠ card → ∀ j : ℤ,
      (∃ s, mapGet M j = some s ∧ c ∈ s) ↔ (∃ s, mapGet buckets j = some s ∧ c ∈ s)) := by
  cases hf : findCurrentBucket card buckets with
  | none =>
    exfalso
    unfold update at hupd
    rw [hf] at hupd
    exact Except.noConfusion hupd
  | some b =>
    rw [update_eq_of_found hf] at hupd
    have hXM := Except.ok.inj hupd
    subst hXM
    have hfree : ∀ kv ∈ deleteCardAt buckets b card, card ∉ kv.2 :=
      not_mem_after_delete (hinv card) hf
    have hnodup1 : (mapKeys (deleteCardAt buckets b card)).Nodup := by
      rw [mapKeys_deleteCardAt]; exact hnodup
    by_cases hhas :
        mapHas (deleteCardAt buckets b card) (newBucketFor difficulty b buckets.length) = true
    · rw [if_pos hhas]
      constructor
      · intro c
        by_cases hc : c = card
        · subst hc
          rw [bucketsContaining_addCardAt_card hfree]
          exact countP_key_le_one hnodup1 _
        · rw [bucketsContaining_addCardAt_ne hc, bucketsContaining_deleteCardAt_ne hc]
          exact hinv c
      · intro c hc j
        exact (exists_mem_mapGet_addCardAt hc).trans (exists_mem_mapGet_deleteCardAt hc)
    · have hfalse' :
          mapHas (deleteCardAt buckets b card) (newBucketFor difficulty b buckets.length)
            = false := by
        cases hmh : mapHas (deleteCardAt buckets b card)
            (newBucketFor difficulty b buckets.length)
        · rfl
        · exact absurd hmh hhas
      have hnotmem := mapHas_eq_false_iff.mp hfalse'
      rw [if_neg (by rw [hfalse']; exact Bool.false_ne_true)]
      have hfree2 : ∀ kv ∈ deleteCardAt buckets b card
          ++ [(newBucketFor difficulty b buckets.length, (∅ : Finset Flashcard))],
          card ∉ kv.2 := by
        intro kv hkv
        rcases List.mem_append.mp hkv with h1 | h2
        · exact hfree kv h1
        · rcases List.mem_singleton.mp h2 with rfl
          exact Finset.not_mem_empty card
      have hnodup2 : (mapKeys (deleteCardAt buckets b card
          ++ [(newBucketFor difficulty b buckets.length, (∅ : Finset Flashcard))])).Nodup := by
        unfold mapKeys
        rw [List.map_append]
        rw [List.nodup_append]
        refine ⟨hnodup1, List.nodup_singleton _, ?_⟩
        intro a ha hb
        rcases List.mem_singleton.mp hb with rfl
        exact hnotmem ha
      constructor
      · intro c
        by_cases hc : c = card
        · subst hc
          rw [bucketsContaining_addCardAt_card hfree2]
          exact countP_key_le_one hnodup2 _
        · rw [bucketsContaining_addCardAt_ne hc, bucketsContaining_append_empty,
            bucketsContaining_deleteCardAt_ne hc]
          exact hinv c
      · intro c hc j
        rw [exists_mem_mapGet_addCardAt hc]
        by_cases hjd : j = newBucketFor difficulty b buckets.length
        · constructor
          · rintro ⟨s, hs, hcs⟩
            exfalso
            rw [hjd, mapGet_append_singleton_self _ hnotmem] at hs
            cases Option.some.inj hs
            exact (Finset.not_mem_empty c) hcs
          · rintro ⟨s, hs, hcs⟩
            exfalso
            have hno : mapGet buckets j = none := by
              apply mapGet_eq_none_iff.mpr
              rw [hjd, ← mapKeys_deleteCardAt buckets b card]
              exact hnotmem
            rw [hno] at hs
            exact Option.noConfusion hs
        · rw [mapGet_append_singleton_ne _ hjd]
          exact exists_mem_mapGet_deleteCardAt hc

/-- Witness for C4: a `Medium` review of the only card of a concrete
single-bucket map preserves the at-most-one-bucket invariant. -/
theorem update_preserves_at_most_one_bucket_witness :
    EachCardInAtMostOneBucket [((0 : ℤ), {cardA})] ∧
    (∀ c : Flashcard, c ≠ cardA → ∀ j : ℤ,
      (∃ s, mapGet [((0 : ℤ), {cardA})] j = some s ∧ c ∈ s) ↔
      (∃ s, mapGet [((0 : ℤ), {cardA})] j = some s ∧ c ∈ s)) :=
  update_preserves_at_most_one_bucket [((0 : ℤ), {cardA})] cardA .Medium
    [((0 : ℤ), {cardA})] (by decide)
    (by
      intro c
      unfold bucketsContaining
      rw [List.countP_cons, List.countP_nil]
      split <;> simp)
    (by decide)

/-! ## C8: `getBucketRange` -/

/-- Absolute index `k` addresses an occupied (non-empty) slot of the
segment `l` when `l` is placed starting at absolute index `i`. -/
def OccupiedFrom (l : List (Finset Flashcard)) (i k : ℕ) : Prop :=
  ∃ j, ∃ h : j < l.length, l.get ⟨j, h⟩ ≠ ∅ ∧ k = i + j

theorem occupiedFrom_cons {s : Finset Flashcard} {rest : List (Finset Flashcard)}
    {i k : ℕ} :
    OccupiedFrom (s :: rest) i k ↔ (s ≠ ∅ ∧ k = i) ∨ OccupiedFrom rest (i + 1) k := by
  constructor
  · rintro ⟨j, h, hne, rfl⟩
    cases j with
    | zero => exact Or.inl ⟨hne, rfl⟩
    | succ j' =>
      refine Or.inr ⟨j', Nat.lt_of_succ_lt_succ h, hne, ?_⟩
      omega
  · rintro (⟨hne, rfl⟩ | ⟨j, h, hne, rfl⟩)
    · exact ⟨0, Nat.succ_pos _, hne, rfl⟩
    · exact ⟨j + 1, Nat.succ_lt_succ h, hne, by omega⟩

theorem rangeLoop_spec (l : List (Finset Flashcard)) (i : ℕ) (acc : Option BucketRange) :
    (rangeLoop l i acc = none ↔ (acc = none ∧ ∀ s ∈ l, s = ∅)) ∧
    (∀ r', rangeLoop l i acc = some r' →
      ((∃ r, acc = some r ∧ r'.minBucket = r.minBucket) ∨ OccupiedFrom l i r'.minBucket) ∧
      ((∃ r, acc = some r ∧ r'.maxBucket = r.maxBucket) ∨ OccupiedFrom l i r'.maxBucket) ∧
      (∀ r, acc = some r → r'.minBucket ≤ r.minBucket ∧ r.maxBucket ≤ r'.maxBucket) ∧
      (∀ k, OccupiedFrom l i k → r'.minBucket ≤ k ∧ k ≤ r'.maxBucket)) := by
  induction l generalizing i acc with
  | nil =>
    constructor
    · simp [rangeLoop]
    · intro r' hr'
      rw [rangeLoop] at hr'
      refine ⟨Or.inl ⟨r', hr', rfl⟩, Or.inl ⟨r', hr', rfl⟩, ?_, ?_⟩
      · intro r hr
        rw [hr] at hr'
        cases Option.some.inj hr'
        exact ⟨le_refl _, le_refl _⟩
      · rintro k ⟨j, h, _, _⟩
        exact absurd h (Nat.not_lt_zero j)
  | cons s rest ih =>
    by_cases hcard : 0 < s.card
    · have hsne : s ≠ ∅ := by
        intro h
        rw [h] at hcard
        simp at hcard
      cases acc with
      | none =>
        have hstep : rangeLoop (s :: rest) i none
            = rangeLoop rest (i + 1) (some ⟨i, i⟩) := by
          rw [rangeLoop]
          simp [hcard]
        obtain ⟨ih1, ih2⟩ := ih (i + 1) (some ⟨i, i⟩)
        constructor
        · rw [hstep, ih1]
          simp [hsne]
        · intro r' hr'
          rw [hstep] at hr'
          obtain ⟨b1, b2, b3, b4⟩ := ih2 r' hr'
          refine ⟨?_, ?_, ?_, ?_⟩
          · rcases b1 with ⟨r, hr, hmin⟩ | hocc
            · cases Option.some.inj hr
              exact Or.inr (occupiedFrom_cons.mpr (Or.inl ⟨hsne, hmin⟩))
            · exact Or.inr (occupiedFrom_cons.mpr (Or.inr hocc))
          · rcases b2 with ⟨r, hr, hmax⟩ | hocc
            · cases Option.some.inj hr
              exact Or.inr (occupiedFrom_cons.mpr (Or.inl ⟨hsne, hmax⟩))
            · exact Or.inr (occupiedFrom_cons.mpr (Or.inr hocc))
          · intro r hr
            exact Option.noConfusion hr
          · intro k hk
            rcases occupiedFrom_cons.mp hk with ⟨_, hki⟩ | hocc
            · rw [hki]
              exact b3 ⟨i, i⟩ rfl
            · exact b4 k hocc
      | some r0 =>
        have hstep : rangeLoop (s :: rest) i (some r0)
            = rangeLoop rest (i + 1)
                (some ⟨min r0.minBucket i, max r0.maxBucket i⟩) := by
          rw [rangeLoop]
          simp [hcard]
        obtain ⟨ih1, ih2⟩ := ih (i + 1) (some ⟨min r0.minBucket i, max r0.maxBucket i⟩)
        constructor
        · rw [hstep, ih1]
          simp [hsne]
        · intro r' hr'
          rw [hstep] at hr'
          obtain ⟨b1, b2, b3, b4⟩ := ih2 r' hr'
          have hacc := b3 ⟨min r0.minBucket i, max r0.maxBucket i⟩ rfl
          refine ⟨?_, ?_, ?_, ?_⟩
          · rcases b1 with ⟨r, hr, hmin⟩ | hocc
            · cases Option.some.inj hr
              rcases min_choice r0.minBucket i with h | h
            -- r'.minBucket = min r0.minBucket i, which is r0.minBucket or i
              · exact Or.inl ⟨r0, rfl, by rw [hmin, h]⟩
              · exact Or.inr (occupiedFrom_cons.mpr (Or.inl ⟨hsne, by rw [hmin, h]⟩))
            · exact Or.inr (occupiedFrom_cons.mpr (Or.inr hocc))
          · rcases b2 with ⟨r, hr, hmax⟩ | hocc
            · cases Option.some.inj hr
              rcases max_choice r0.maxBucket i with h | h
              · exact Or.inl ⟨r0, rfl, by rw [hmax, h]⟩
              · exact Or.inr (occupiedFrom_cons.mpr (Or.inl ⟨hsne, by rw [hmax, h]⟩))
            · exact Or.inr (occupiedFrom_cons.mpr (Or.inr hocc))
          · intro r hr
            cases Option.some.inj hr
            constructor
            · exact le_trans hacc.1 (min_le_left _ _)
            · exact le_trans (le_max_left _ _) hacc.2
          · intro k hk
            rcases occupiedFrom_cons.mp hk with ⟨_, hki⟩ | hocc
            · rw [hki]
              constructor
              · exact le_trans hacc.1 (min_le_right _ _)
              · exact le_trans (le_max_right _ _) hacc.2
            · exact b4 k hocc
    · have hs : s = ∅ :=
        Finset.not_nonempty_iff_eq_empty.mp (fun hne => hcard (Finset.card_pos.mpr hne))
      have hstep : rangeLoop (s :: rest) i acc = rangeLoop rest (i + 1) acc := by
        rw [rangeLoop.eq_def]
        simp [hcard]
      obtain ⟨ih1, ih2⟩ := ih (i + 1) acc
      constructor
      · rw [hstep, ih1]
        simp [hs]
      · intro r' hr'
        rw [hstep] at hr'
        obtain ⟨b1, b2, b3, b4⟩ := ih2 r' hr'
        refine ⟨?_, ?_, b3, ?_⟩
        · rcases b1 with hl | hocc
          · exact Or.inl hl
          · exact Or.inr (occupiedFrom_cons.mpr (Or.inr hocc))
        · rcases b2 with hl | hocc
          · exact Or.inl hl
          · exact Or.inr (occupiedFrom_cons.mpr (Or.inr hocc))
        · intro k hk
          rcases occupiedFrom_cons.mp hk with ⟨hne, _⟩ | hocc
          · exact absurd hs hne
          · exact b4 k hocc

/-- **C8.** For every dense bucket array, `getBucketRange` returns the
absent value exactly when no index holds a non-empty set (including the
empty array and all-empty arrays), and otherwise `{minBucket, maxBucket}`
where `minBucket` is the lowest and `maxBucket` the highest index whose set
is non-empty. -/
theorem getBucketRange_spec (buckets : List (Finset Flashcard)) :
    (getBucketRange buckets = none ↔ ∀ s ∈ buckets, s = ∅) ∧
    (∀ r, getBucketRange buckets = some r →
      (∃ h : r.minBucket < buckets.length, buckets.get ⟨r.minBucket, h⟩ ≠ ∅) ∧
      (∃ h : r.maxBucket < buckets.length, buckets.get ⟨r.maxBucket, h⟩ ≠ ∅) ∧
      (∀ j, ∀ h : j < buckets.length, buckets.get ⟨j, h⟩ ≠ ∅ →
        r.minBucket ≤ j ∧ j ≤ r.maxBucket)) := by
  obtain ⟨h1, h2⟩ := rangeLoop_spec buckets 0 none
  constructor
  · rw [getBucketRange, h1]
    simp
  · intro r hr
    obtain ⟨b1, b2, b3, b4⟩ := h2 r hr
    refine ⟨?_, ?_, ?_⟩
    · rcases b1 with ⟨r0, hr0, _⟩ | ⟨j, h, hne, hk⟩
      · exact Option.noConfusion hr0
      · have hj : r.minBucket = j := by omega
        rw [hj]
        exact ⟨h, hne⟩
    · rcases b2 with ⟨r0, hr0, _⟩ | ⟨j, h, hne, hk⟩
      · exact Option.noConfusion hr0
      · have hj : r.maxBucket = j := by omega
        rw [hj]
        exact ⟨h, hne⟩
    · intro j h hne
      exact b4 j ⟨j, h, hne, (Nat.zero_add j).symm⟩

/-- Witness for C8: on the concrete array `[∅, {A}]` the single occupied
index `1` is both the lowest and the highest occupied bucket. -/
theorem getBucketRange_spec_witness :
    (∃ h : (1 : ℕ) < [(∅ : Finset Flashcard), {cardA}].length,
        [(∅ : Finset Flashcard), {cardA}].get ⟨1, h⟩ ≠ ∅) ∧
    (∃ h : (1 : ℕ) < [(∅ : Finset Flashcard), {cardA}].length,
        [(∅ : Finset Flashcard), {cardA}].get ⟨1, h⟩ ≠ ∅) ∧
    (∀ j, ∀ h : j < [(∅ : Finset Flashcard), {cardA}].length,
        [(∅ : Finset Flashcard), {cardA}].get ⟨j, h⟩ ≠ ∅ → 1 ≤ j ∧ j ≤ 1) :=
  (getBucketRange_spec [(∅ : Finset Flashcard), {cardA}]).2 ⟨1, 1⟩ (by decide)

/-! ## C7: `toBucketSets` -/

theorem foldl_max_le_init (l : List ℤ) (a : ℤ) : a ≤ l.foldl max a := by
  induction l generalizing a with
  | nil => exact le_refl a
  | cons x rest ih => exact le_trans (le_max_left a x) (ih (max a x))

theorem le_foldl_max_of_mem {l : List ℤ} {x : ℤ} (h : x ∈ l) (a : ℤ) :
    x ≤ l.foldl max a := by
  induction l generalizing a with
  | nil => cases h
  | cons y rest ih =>
    rcases List.mem_cons.mp h with rfl | hmem
    · exact le_trans (le_max_right a x) (foldl_max_le_init rest (max a x))
    · exact ih hmem (max a y)

theorem foldl_max_eq_init_or_mem (l : List ℤ) (a : ℤ) :
    l.foldl max a = a ∨ l.foldl max a ∈ l := by
  induction l generalizing a with
  | nil => exact Or.inl rfl
  | cons x rest ih =>
    rcases ih (max a x) with h | h
    · rcases max_choice a x with h2 | h2
      · exact Or.inl (by rw [List.foldl_cons, h, h2])
      · exact Or.inr (by rw [List.foldl_cons, h, h2]; exact List.mem_cons_self x rest)
    · exact Or.inr (List.mem_cons_of_mem x h)

theorem maxBucketKey_eq (m : BucketMap) :
    maxBucketKey m = (mapKeys m).foldl max (-1) := by
  unfold maxBucketKey mapKeys
  rw [List.foldl_map]

theorem foldl_set_length (l : BucketMap) (arr : List (Finset Flashcard)) :
    (l.foldl (fun arr kv => arr.set kv.1.toNat kv.2) arr).length = arr.length := by
  induction l generalizing arr with
  | nil => rfl
  | cons kv rest ih => rw [List.foldl_cons, ih, List.length_set]

theorem foldl_set_getElem?_of_not_mem (l : BucketMap) (arr : List (Finset Flashcard))
    (p : ℕ) (h : ∀ kv ∈ l, kv.1.toNat ≠ p) :
    (l.foldl (fun arr kv => arr.set kv.1.toNat kv.2) arr)[p]? = arr[p]? := by
  induction l generalizing arr with
  | nil => rfl
  | cons kv rest ih =>
    rw [List.foldl_cons, ih _ (fun kv' h' => h kv' (List.mem_cons_of_mem kv h'))]
    exact List.getElem?_set_ne (h kv (List.mem_cons_self kv rest))

theorem foldl_set_getElem?_of_mem {l : BucketMap} {k : ℤ} {s : Finset Flashcard}
    (arr : List (Finset Flashcard)) (hmem : (k, s) ∈ l)
    (hdistinct : (mapKeys l).Nodup) (hnonneg : ∀ x ∈ mapKeys l, 0 ≤ x)
    (hlen : k.toNat < arr.length) :
    (l.foldl (fun arr kv => arr.set kv.1.toNat kv.2) arr)[k.toNat]? = some s := by
  induction l generalizing arr with
  | nil => cases hmem
  | cons kv rest ih =>
    rw [mapKeys_cons, List.nodup_cons] at hdistinct
    rw [List.foldl_cons]
    rcases List.mem_cons.mp hmem with heq | hmem'
    · cases heq
      rw [foldl_set_getElem?_of_not_mem rest _ k.toNat ?hne]
      · exact List.getElem?_set_self hlen
      case hne =>
        intro kv' h' hc
        apply hdistinct.1
        have h1 : 0 ≤ kv'.1 := hnonneg _ (by
          rw [mapKeys_cons]
          exact List.mem_cons_of_mem _ (List.mem_map_of_mem Prod.fst h'))
        have h2 : 0 ≤ k := hnonneg _ (by
          rw [mapKeys_cons]
          exact List.mem_cons_self _ _)
        have heq2 : kv'.1 = k := by omega
        have h3 : kv'.1 ∈ mapKeys rest := List.mem_map_of_mem Prod.fst h'
        rw [heq2] at h3
        exact h3
    · exact ih _ hmem' hdistinct.2
        (fun x hx => hnonneg x (by
          rw [mapKeys_cons]
          exact List.mem_cons_of_mem _ hx))
        (by rw [List.length_set]; exact hlen)

/-- **C7.** For every sparse bucket map (distinct, non-negative keys, as the
data model requires), `toBucketSets` returns a dense array of length
(maximum bucket key present + 1), or length 0 when the map is empty; the
slot at each key present in the map holds that bucket's set, and every
other slot holds an empty set.  (The embedding is pure, so the input map is
not mutated.) -/
theorem toBucketSets_spec (buckets : BucketMap)
    (hnodup : (mapKeys buckets).Nodup)
    (hnonneg : ∀ k ∈ mapKeys buckets, 0 ≤ k) :
    (toBucketSets buckets).length = (maxBucketKey buckets + 1).toNat ∧
    (buckets = [] → toBucketSets buckets = []) ∧
    (∀ k ∈ mapKeys buckets, k ≤ maxBucketKey buckets) ∧
    (buckets ≠ [] → maxBucketKey buckets ∈ mapKeys buckets) ∧
    (∀ kv ∈ buckets, (toBucketSets buckets)[kv.1.toNat]? = some kv.2) ∧
    (∀ p : ℕ, p < (toBucketSets buckets).length → (p : ℤ) ∉ mapKeys buckets →
      (toBucketSets buckets)[p]? = some ∅) := by
  have hlen : (toBucketSets buckets).length = (maxBucketKey buckets + 1).toNat := by
    unfold toBucketSets
    rw [foldl_set_length, List.length_replicate]
  have hbound : ∀ k ∈ mapKeys buckets, k ≤ maxBucketKey buckets := by
    intro k hk
    rw [maxBucketKey_eq]
    exact le_foldl_max_of_mem hk (-1)
  refine ⟨hlen, ?_, hbound, ?_, ?_, ?_⟩
  · intro h
    subst h
    rfl
  · intro hne
    rcases foldl_max_eq_init_or_mem (mapKeys buckets) (-1) with h | h
    · exfalso
      obtain ⟨kv, hkv⟩ := List.exists_mem_of_ne_nil buckets hne
      have h0 : 0 ≤ kv.1 := hnonneg _ (List.mem_map_of_mem Prod.fst hkv)
      have hle : kv.1 ≤ maxBucketKey buckets :=
        hbound _ (List.mem_map_of_mem Prod.fst hkv)
      rw [maxBucketKey_eq, h] at hle
      omega
    · rw [maxBucketKey_eq]
      exact h
  · intro kv hkv
    have h0 : 0 ≤ kv.1 := hnonneg _ (List.mem_map_of_mem Prod.fst hkv)
    have hle : kv.1 ≤ maxBucketKey buckets :=
      hbound _ (List.mem_map_of_mem Prod.fst hkv)
    unfold toBucketSets
    apply foldl_set_getElem?_of_mem _ hkv hnodup hnonneg
    rw [List.length_replicate]
    omega
  · intro p hp hnotkey
    unfold toBucketSets
    rw [foldl_set_getElem?_of_not_mem]
    · rw [List.getElem?_replicate]
      rw [hlen] at hp
      simp [hp]
    · intro kv hkv hc
      apply hnotkey
      have h0 : 0 ≤ kv.1 := hnonneg _ (List.mem_map_of_mem Prod.fst hkv)
      have heq2 : kv.1 = (p : ℤ) := by omega
      exact heq2 ▸ List.mem_map_of_mem Prod.fst hkv

/-- Witness for C7: the one-entry map `{2 ↦ {A}}` yields the dense array
`[∅, ∅, {A}]` of length `2 + 1`. -/
theorem toBucketSets_spec_witness :
    (toBucketSets [((2 : ℤ), {cardA})]).length
        = (maxBucketKey [((2 : ℤ), {cardA})] + 1).toNat ∧
    ([((2 : ℤ), {cardA})] = ([] : BucketMap) → toBucketSets [((2 : ℤ), {cardA})] = []) ∧
    (∀ k ∈ mapKeys [((2 : ℤ), {cardA})], k ≤ maxBucketKey [((2 : ℤ), {cardA})]) ∧
    ([((2 : ℤ), {cardA})] ≠ ([] : BucketMap) →
      maxBucketKey [((2 : ℤ), {cardA})] ∈ mapKeys [((2 : ℤ), {cardA})]) ∧
    (∀ kv ∈ [((2 : ℤ), {cardA})],
      (toBucketSets [((2 : ℤ), {cardA})])[kv.1.toNat]? = some kv.2) ∧
    (∀ p : ℕ, p < (toBucketSets [((2 : ℤ), {cardA})]).length →
      (p : ℤ) ∉ mapKeys [((2 : ℤ), {cardA})] →
      (toBucketSets [((2 : ℤ), {cardA})])[p]? = some ∅) :=
  toBucketSets_spec [((2 : ℤ), {cardA})] (by decide) (by decide)

/-! ## C6: `computeProgress` -/

theorem foldl_add_eq_sum (f : PracticeRecord → ℚ) (l : List PracticeRecord) (a : ℚ) :
    l.foldl (fun acc r => acc + f r) a = a + (l.map f).sum := by
  induction l generalizing a with
  | nil => simp
  | cons r rest ih =>
    rw [List.foldl_cons, ih, List.map_cons, List.sum_cons]
    ring

/-- **C6.** `computeProgress` fails with the invalid-buckets error when some
bucket key of the map is not a non-negative integer (non-integer or
negative), fails with the invalid-history error when some record lacks a
card, a difficulty, or a numeric timestamp, and otherwise returns
accuracyRate = (count of Easy records)/(total records) with exactly 0 for
empty history, bucketDistribution mapping each bucket key present to its
set's size (absent keys absent), and averageDifficulty = the mean of the
records' difficulty ordinals, or `none` for empty history. -/
theorem computeProgress_spec (buckets : NumberBucketMap) (history : List PracticeRecord) :
    ((∃ k ∈ numberMapKeys buckets, ¬ (jsIsInteger k = true ∧ 0 ≤ k)) →
      computeProgress buckets history
        = .error "Invalid bucket keys: must be non-negative integers.") ∧
    ((∀ k ∈ numberMapKeys buckets, jsIsInteger k = true ∧ 0 ≤ k) →
      (∃ r ∈ history, recordInvalid r = true) →
      computeProgress buckets history = .error "Invalid history data.") ∧
    ((∀ k ∈ numberMapKeys buckets, jsIsInteger k = true ∧ 0 ≤ k) →
      (∀ r ∈ history, recordInvalid r = false) →
      ∃ p, computeProgress buckets history = .ok p ∧
        p.accuracyRate = (if history.length = 0 then 0
          else ((history.countP (fun r => r.difficulty = some .Easy) : ℚ)
            / (history.length : ℚ))) ∧
        p.bucketDistribution = buckets.map (fun kv => (kv.1, kv.2.card)) ∧
        p.averageDifficulty = (if history.length = 0 then none
          else some (((history.map
              (fun r => ((r.difficulty.map AnswerDifficulty.ordinal).getD 0))).sum)
            / (history.length : ℚ)))) := by
  refine ⟨?_, ?_, ?_⟩
  · rintro ⟨k, hk, hbad⟩
    have hcond :
        ¬ ((numberMapKeys buckets).all (fun k => jsIsInteger k && decide (0 ≤ k)) = true) := by
      intro hall
      have h := List.all_eq_true.mp hall k hk
      rw [Bool.and_eq_true, decide_eq_true_eq] at h
      exact hbad h
    unfold computeProgress
    rw [if_pos hcond]
  · intro hkeys ⟨r, hr, hinv⟩
    have hcond :
        (numberMapKeys buckets).all (fun k => jsIsInteger k && decide (0 ≤ k)) = true :=
      List.all_eq_true.mpr (fun k hk => by
        rw [Bool.and_eq_true, decide_eq_true_eq]
        exact hkeys k hk)
    have hhist : history.any recordInvalid = true :=
      List.any_eq_true.mpr ⟨r, hr, hinv⟩
    unfold computeProgress
    rw [if_neg (not_not_intro hcond), if_pos hhist]
  · intro hkeys hvalid
    have hcond :
        (numberMapKeys buckets).all (fun k => jsIsInteger k && decide (0 ≤ k)) = true :=
      List.all_eq_true.mpr (fun k hk => by
        rw [Bool.and_eq_true, decide_eq_true_eq]
        exact hkeys k hk)
    have hhist : ¬ (history.any recordInvalid = true) := by
      intro hany
      obtain ⟨r, hr, hinv⟩ := List.any_eq_true.mp hany
      rw [hvalid r hr] at hinv
      exact Bool.false_ne_true hinv
    unfold computeProgress
    rw [if_neg (not_not_intro hcond), if_neg hhist]
    dsimp only
    refine ⟨_, rfl, ?_, ?_, ?_⟩
    · by_cases hlen : history.length = 0
      · rw [if_pos hlen, if_neg (by omega)]
      · rw [if_neg hlen, if_pos (by omega), List.countP_eq_length_filter]
    · rfl
    · by_cases hlen : history.length = 0
      · simp [hlen]
      · have h0 : 0 < history.length := Nat.pos_of_ne_zero hlen
        simp only [if_neg hlen, if_pos h0]
        rw [foldl_add_eq_sum, zero_add]

/-- Witness for C6: one bucket `{0 ↦ {A}}` and a single valid `Easy`
record yield accuracy 1/1, distribution `[(0, 1)]`, and mean difficulty
(the `Easy` ordinal)/1. -/
theorem computeProgress_spec_witness :
    ∃ p, computeProgress [((0 : ℚ), {cardA})]
        [⟨some cardA, some .Easy, some 1⟩] = .ok p ∧
      p.accuracyRate
        = (if ([(⟨some cardA, some .Easy, some 1⟩ : PracticeRecord)]).length = 0 then 0
          else ((([(⟨some cardA, some .Easy, some 1⟩ : PracticeRecord)]).countP
              (fun r => r.difficulty = some .Easy) : ℚ)
            / ((([(⟨some cardA, some .Easy, some 1⟩ : PracticeRecord)]).length : ℚ)))) ∧
      p.bucketDistribution
        = ([((0 : ℚ), {cardA})] : NumberBucketMap).map (fun kv => (kv.1, kv.2.card)) ∧
      p.averageDifficulty
        = (if ([(⟨some cardA, some .Easy, some 1⟩ : PracticeRecord)]).length = 0 then none
          else some (((([(⟨some cardA, some .Easy, some 1⟩ : PracticeRecord)]).map
              (fun r => ((r.difficulty.map AnswerDifficulty.ordinal).getD 0))).sum)
            / ((([(⟨some cardA, some .Easy, some 1⟩ : PracticeRecord)]).length : ℚ)))) :=
  (computeProgress_spec [((0 : ℚ), {cardA})]
    [⟨some cardA, some .Easy, some 1⟩]).2.2
    (by
      intro k hk
      rcases List.mem_singleton.mp hk with rfl
      exact ⟨by simp [jsIsInteger], le_refl 0⟩)
    (by decide)

end Flashcards
